import Mathlib

/-!
Verification of the querystring-transform helper of the taxi service app
(`taxi/templatetags/query_transform.py`).

The helper is

    updated = request.GET.copy()
    for k, v in kwargs.items():
        if v is not None:
            updated[k] = v
        else:
            updated.pop(k, 0)
    return updated.urlencode()

`request.GET` is a Django `QueryDict`: an ordered multi-map from keys to
non-empty lists of string values.  We embed it as an association list from
byte strings to lists of byte strings (a byte string is the UTF-8 byte
sequence of a Python string, each entry below 256).  `updated[k] = v`
(`MultiValueDict.__setitem__`) replaces the value list of `k` by the single
value `v` in place, appending the key at the end when new; `pop(k, 0)`
deletes the key, silently when absent; `urlencode` emits one
percent-encoded `key=value` pair per value, pairs joined by the byte 38
(the ampersand), spaces encoded as 43 (the plus sign) and other non
unreserved bytes as percent escapes, matching the quote-plus convention the
framework uses.  Django stringifies override values at encoding time;
since stringifying a string is the identity we stringify at store time,
which yields the same output.  Decoding follows `QueryDict.__init__` /
`parse_qsl` with blank values kept: split on 38, split each field at its
first 61 (the equals sign), percent-decode both halves, skip empty fields.
-/

namespace QT

/-- A byte string: the UTF-8 bytes of a Python string, each entry below 256. -/
abbrev ByteStr := List Nat

/-- All bytes of a byte string are below 256. -/
def bytesValid (s : ByteStr) : Prop := ∀ b ∈ s, b < 256

instance (s : ByteStr) : Decidable (bytesValid s) :=
  inferInstanceAs (Decidable (∀ b ∈ s, b < 256))

/-- A Django `QueryDict`: an ordered association list from keys to lists of
values.  A well-formed dictionary has pairwise distinct keys and a non-empty
value list for every key. -/
abbrev QueryDict := List (ByteStr × List ByteStr)

/-- The keys of a dictionary, in order. -/
def keys (m : QueryDict) : List ByteStr := m.map Prod.fst

/-- The list of values stored under a key (empty when the key is absent);
the multi-map reading of a dictionary. -/
def getVals : QueryDict → ByteStr → List ByteStr
  | [], _ => []
  | p :: rest, k => if p.1 = k then p.2 else getVals rest k

/-- `MultiValueDict.__setitem__`: replace the value list of `k` by the single
value `v`, keeping the entry position; append the entry when `k` is new. -/
def setKey : QueryDict → ByteStr → ByteStr → QueryDict
  | [], k, v => [(k, [v])]
  | p :: rest, k, v => if p.1 = k then (k, [v]) :: rest else p :: setKey rest k v

/-- `dict.pop(k, default)`: drop the entry of `k`; a silent no-op when `k`
is absent. -/
def popKey : QueryDict → ByteStr → QueryDict
  | [], _ => []
  | p :: rest, k => if p.1 = k then rest else p :: popKey rest k

/-- A Python value passed as an override: the call sites pass strings,
integers and booleans. -/
inductive PyVal where
  | str (s : ByteStr)
  | int (n : Int)
  | bool (b : Bool)
deriving DecidableEq

/-- Decimal digits of a natural number, least significant first. -/
def natDigitsRev : Nat → List Nat
  | 0 => []
  | n + 1 => (48 + (n + 1) % 10) :: natDigitsRev ((n + 1) / 10)
decreasing_by exact Nat.div_lt_self (Nat.succ_pos n) (by omega)

/-- Python `str` of a natural number. -/
def natToDec (n : Nat) : ByteStr := if n = 0 then [48] else (natDigitsRev n).reverse

/-- Python `str` of an integer. -/
def intToDec (i : Int) : ByteStr :=
  if i < 0 then 45 :: natToDec i.natAbs else natToDec i.natAbs

/-- Python `str` of a value: strings unchanged, integers in decimal,
booleans as `True` / `False`. -/
def PyVal.pyStr : PyVal → ByteStr
  | .str s => s
  | .int n => intToDec n
  | .bool b => if b then [84, 114, 117, 101] else [70, 97, 108, 115, 101]

/-- A value is well formed when its byte string is made of bytes below 256. -/
def PyVal.wf : PyVal → Prop
  | .str s => bytesValid s
  | .int _ => True
  | .bool _ => True

instance : (v : PyVal) → Decidable v.wf
  | .str s => inferInstanceAs (Decidable (bytesValid s))
  | .int _ => inferInstanceAs (Decidable True)
  | .bool _ => inferInstanceAs (Decidable True)

/-- The override mapping built from the tag's keyword arguments: an ordered
association list from keys to either a value or the absent sentinel `none`
(Python `None`). -/
abbrev Ov := List (ByteStr × Option PyVal)

/-- Well-formedness of one override entry: a concrete value is well formed;
the sentinel always is. -/
def entryWF : Option PyVal → Prop
  | some v => v.wf
  | none => True

instance : (e : Option PyVal) → Decidable (entryWF e)
  | some v => inferInstanceAs (Decidable v.wf)
  | none => inferInstanceAs (Decidable True)

/-- One loop iteration of `query_transform`: `updated[k] = v` when the value
is not `None`, otherwise `updated.pop(k, 0)`. -/
def applyOverride (m : QueryDict) (e : ByteStr × Option PyVal) : QueryDict :=
  match e.2 with
  | some v => setKey m e.1 v.pyStr
  | none => popKey m e.1

/-- The whole loop of `query_transform`, run on an initial dictionary. -/
def applyOverrides (m : QueryDict) (O : Ov) : QueryDict := O.foldl applyOverride m

/-- Unreserved bytes, kept verbatim by the quote-plus encoder: letters,
digits, 45 `-`, 46 `.`, 95 `_` and 126 `~`. -/
def isUnreserved (b : Nat) : Bool :=
  (65 ≤ b && b ≤ 90) || (97 ≤ b && b ≤ 122) || (48 ≤ b && b ≤ 57) ||
    b == 45 || b == 46 || b == 95 || b == 126

/-- Upper-case hexadecimal digit byte of a number below 16. -/
def toHexDigit (n : Nat) : Nat := if n < 10 then 48 + n else 55 + n

/-- Quote-plus encoding of one byte: unreserved bytes verbatim, the space
as 43 `+`, everything else as 37 `%` followed by two hex digit bytes. -/
def percentEncodeByte (b : Nat) : List Nat :=
  if isUnreserved b then [b]
  else if b = 32 then [43]
  else [37, toHexDigit (b / 16), toHexDigit (b % 16)]

/-- Quote-plus encoding of a byte string. -/
def percentEncode : ByteStr → List Nat
  | [] => []
  | b :: rest => percentEncodeByte b ++ percentEncode rest

/-- Value of a hexadecimal digit byte, upper or lower case. -/
def fromHexDigit (c : Nat) : Option Nat :=
  if 48 ≤ c ∧ c ≤ 57 then some (c - 48)
  else if 65 ≤ c ∧ c ≤ 70 then some (c - 55)
  else if 97 ≤ c ∧ c ≤ 102 then some (c - 87)
  else none

/-- Quote-plus decoding: 37 `%` followed by two hex digits yields that byte,
43 `+` yields the space, anything else is literal; a malformed escape is
kept verbatim, as `unquote` does. -/
def percentDecode : List Nat → List Nat
  | [] => []
  | c :: rest =>
    if c = 37 then
      match _hr : rest with
      | h :: l :: rest2 =>
        match fromHexDigit h, fromHexDigit l with
        | some a, some b => (16 * a + b) :: percentDecode rest2
        | _, _ => c :: percentDecode rest
      | _ => c :: percentDecode rest
    else if c = 43 then 32 :: percentDecode rest
    else c :: percentDecode rest
termination_by s => s.length
decreasing_by all_goals (simp_all [List.length_cons] <;> omega)

/-- The `key=value` pairs of a dictionary in emission order: one pair per
value, a key's pairs contiguous. -/
def pairsOf : QueryDict → List (ByteStr × ByteStr)
  | [] => []
  | p :: rest => (p.2.map fun v => (p.1, v)) ++ pairsOf rest

/-- One encoded `key=value` field: the two percent-encodings joined by the
byte 61 `=`. -/
def encodePair (k v : ByteStr) : List Nat := percentEncode k ++ 61 :: percentEncode v

/-- Fields joined by the byte 38 `&`. -/
def joinAmp : List (List Nat) → List Nat
  | [] => []
  | [f] => f
  | f :: fs => f ++ 38 :: joinAmp fs

/-- `QueryDict.urlencode`: percent-encode every `key=value` pair and join
the fields with 38 `&`.  No leading question mark is emitted. -/
def urlencode (m : QueryDict) : List Nat :=
  joinAmp ((pairsOf m).map fun p => encodePair p.1 p.2)

/-- Split a query string at every byte 38 `&`. -/
def splitAmp : List Nat → List (List Nat)
  | [] => [[]]
  | c :: rest =>
    if c = 38 then [] :: splitAmp rest
    else
      match splitAmp rest with
      | [] => [[c]]
      | f :: fs => (c :: f) :: fs

/-- Split a field at its first byte 61 `=`; `none` when there is no 61,
mirroring `partition`. -/
def splitFirstEq : List Nat → Option (List Nat × List Nat)
  | [] => none
  | c :: rest =>
    if c = 61 then some ([], rest)
    else
      match splitFirstEq rest with
      | some kv => some (c :: kv.1, kv.2)
      | none => none

/-- Parse one `key=value` field as `parse_qsl` with blank values kept does:
split at the first 61 and percent-decode both halves; a field without 61
becomes a key with a blank value; an empty field is skipped. -/
def parseField (f : List Nat) : Option (ByteStr × ByteStr) :=
  match splitFirstEq f with
  | some kv => some (percentDecode kv.1, percentDecode kv.2)
  | none => if f = [] then none else some (percentDecode f, [])

/-- `QueryDict.appendlist` while parsing: append the value under the key,
creating the entry at the end when the key is new. -/
def insertPair : QueryDict → ByteStr → ByteStr → QueryDict
  | [], k, v => [(k, [v])]
  | p :: rest, k, v =>
    if p.1 = k then (p.1, p.2 ++ [v]) :: rest else p :: insertPair rest k v

/-- `QueryDict(query_string)`: split on 38, parse each field, and collect
the pairs into a fresh multi-map. -/
def decode (s : List Nat) : QueryDict :=
  ((splitAmp s).filterMap parseField).foldl (fun m kv => insertPair m kv.1 kv.2) []

/-- Well-formedness of a dictionary: pairwise distinct keys, a non-empty
value list for each key, all bytes below 256. -/
def QueryDict.WF (m : QueryDict) : Prop :=
  (keys m).Nodup ∧ ∀ p ∈ m, p.2 ≠ [] ∧ bytesValid p.1 ∧ ∀ v ∈ p.2, bytesValid v

instance (m : QueryDict) : Decidable m.WF :=
  inferInstanceAs (Decidable (_ ∧ _))

/-- Well-formedness of an override mapping: pairwise distinct keys (Python
keyword arguments are), keys of bytes below 256, well-formed values. -/
def Ov.WF (O : Ov) : Prop :=
  (O.map Prod.fst).Nodup ∧ ∀ p ∈ O, bytesValid p.1 ∧ entryWF p.2

instance (O : Ov) : Decidable O.WF :=
  inferInstanceAs (Decidable (_ ∧ _))

/-- The local state of one call of `query_transform`: the request's `GET`
dictionary and the local variable `updated`. -/
structure TransformState where
  GET : QueryDict
  updated : QueryDict
deriving DecidableEq

/-- One loop iteration: only the local variable `updated` is assigned,
`request.GET` is never written. -/
def qtStep (s : TransformState) (e : ByteStr × Option PyVal) : TransformState :=
  { s with updated := applyOverride s.updated e }

/-- The body of `query_transform` up to the `return`: `updated`
starts as `request.GET.copy()`, then the loop runs over the keyword
arguments in order. -/
def qtRun (P : QueryDict) (O : Ov) : TransformState :=
  O.foldl qtStep { GET := P, updated := P }

/-- `query_transform(request, **kwargs)`: the url-encoding of the final
`updated` dictionary. -/
def query_transform (P : QueryDict) (O : Ov) : List Nat :=
  urlencode (qtRun P O).updated

/-! Lemmas about the byte-level encoder and decoder. -/

theorem isUnreserved_spec (b : Nat) (h : isUnreserved b = true) :
    b ≤ 126 ∧ b ≠ 37 ∧ b ≠ 43 ∧ b ≠ 38 ∧ b ≠ 61 ∧ b ≠ 63 ∧ b ≠ 32 := by
  simp only [isUnreserved, Bool.or_eq_true, Bool.and_eq_true, decide_eq_true_eq,
    beq_iff_eq] at h
  omega

theorem toHexDigit_range (n : Nat) (h : n < 16) :
    (48 ≤ toHexDigit n ∧ toHexDigit n ≤ 57) ∨ (65 ≤ toHexDigit n ∧ toHexDigit n ≤ 70) := by
  unfold toHexDigit; split <;> omega

theorem fromHexDigit_toHexDigit (n : Nat) (h : n < 16) :
    fromHexDigit (toHexDigit n) = some n := by
  unfold toHexDigit fromHexDigit
  split_ifs <;> simp_all <;> omega

theorem percentEncodeByte_mem (b d : Nat) (hb : b < 256) (hd : d ∈ percentEncodeByte b) :
    d < 128 ∧ d ≠ 38 ∧ d ≠ 61 ∧ d ≠ 63 := by
  unfold percentEncodeByte at hd
  split_ifs at hd with h1 h2
  · have hdb : d = b := by simpa using hd
    have := isUnreserved_spec b h1
    omega
  · have hdb : d = 43 := by simpa using hd
    omega
  · have r1 := toHexDigit_range (b / 16) (by omega)
    have r2 := toHexDigit_range (b % 16) (by omega)
    simp only [List.mem_cons, List.mem_singleton] at hd
    rcases hd with rfl | rfl | rfl | h
    · omega
    · omega
    · omega
    · simp at h

theorem percentEncode_mem (s : ByteStr) (d : Nat) (hs : bytesValid s)
    (hd : d ∈ percentEncode s) : d < 128 ∧ d ≠ 38 ∧ d ≠ 61 ∧ d ≠ 63 := by
  induction s with
  | nil => simp [percentEncode] at hd
  | cons b rest ih =>
    simp only [percentEncode, List.mem_append] at hd
    rcases hd with hd | hd
    · exact percentEncodeByte_mem b d (hs b (List.mem_cons_self b rest)) hd
    · exact ih (fun x hx => hs x (List.mem_cons_of_mem _ hx)) hd

theorem percentDecode_nil : percentDecode [] = [] := by
  simp [percentDecode]

theorem percentDecode_lit (c : Nat) (rest : List Nat) (h37 : c ≠ 37) (h43 : c ≠ 43) :
    percentDecode (c :: rest) = c :: percentDecode rest := by
  rw [percentDecode.eq_def]
  simp [h37, h43]

theorem percentDecode_plus (rest : List Nat) :
    percentDecode (43 :: rest) = 32 :: percentDecode rest := by
  rw [percentDecode.eq_def]
  simp

theorem percentDecode_escape (b : Nat) (rest : List Nat) (hb : b < 256) :
    percentDecode (37 :: toHexDigit (b / 16) :: toHexDigit (b % 16) :: rest) =
      b :: percentDecode rest := by
  have hd : 16 * (b / 16) + b % 16 = b := by omega
  rw [percentDecode.eq_def]
  simp [fromHexDigit_toHexDigit (b / 16) (by omega),
    fromHexDigit_toHexDigit (b % 16) (by omega), hd]

theorem percentDecode_percentEncode (s : ByteStr) (hs : bytesValid s) :
    percentDecode (percentEncode s) = s := by
  induction s with
  | nil => simp [percentEncode, percentDecode_nil]
  | cons b rest ih =>
    have hb : b < 256 := hs b (List.mem_cons_self b rest)
    have hrest : bytesValid rest := fun x hx => hs x (List.mem_cons_of_mem _ hx)
    show percentDecode (percentEncode (b :: rest)) = b :: rest
    rw [show percentEncode (b :: rest) = percentEncodeByte b ++ percentEncode rest from rfl]
    unfold percentEncodeByte
    split_ifs with h1 h2
    · have hspec := isUnreserved_spec b h1
      simpa [percentDecode_lit b _ hspec.2.1 hspec.2.2.1] using ih hrest
    · subst h2
      simpa [percentDecode_plus] using ih hrest
    · simpa [percentDecode_escape b _ hb] using ih hrest

theorem splitAmp_no_amp (s : List Nat) (h : 38 ∉ s) : splitAmp s = [s] := by
  induction s with
  | nil => simp [splitAmp]
  | cons c rest ih =>
    have hc : ¬ c = 38 := fun hc => h (by simp [hc])
    have hrest : 38 ∉ rest := fun hr => h (List.mem_cons_of_mem _ hr)
    simp [splitAmp, if_neg hc, ih hrest]

theorem splitAmp_append (f s : List Nat) (h : 38 ∉ f) :
    splitAmp (f ++ 38 :: s) = f :: splitAmp s := by
  induction f with
  | nil => simp [splitAmp]
  | cons c f ih =>
    have hc : ¬ c = 38 := fun hc => h (by simp [hc])
    have hf : 38 ∉ f := fun hr => h (List.mem_cons_of_mem _ hr)
    simp [splitAmp, if_neg hc, ih hf]

theorem splitFirstEq_append (k v : List Nat) (h : 61 ∉ k) :
    splitFirstEq (k ++ 61 :: v) = some (k, v) := by
  induction k with
  | nil => simp [splitFirstEq]
  | cons c k ih =>
    have hc : ¬ c = 61 := fun hc => h (by simp [hc])
    have hk : 61 ∉ k := fun hr => h (List.mem_cons_of_mem _ hr)
    simp [splitFirstEq, if_neg hc, ih hk]

theorem parseField_encodePair (k v : ByteStr) (hk : bytesValid k) (hv : bytesValid v) :
    parseField (encodePair k v) = some (k, v) := by
  have h61 : 61 ∉ percentEncode k := fun hm => (percentEncode_mem k 61 hk hm).2.2.1 rfl
  unfold parseField encodePair
  rw [splitFirstEq_append _ _ h61]
  simp [percentDecode_percentEncode k hk, percentDecode_percentEncode v hv]

theorem encodePair_no_amp (k v : ByteStr) (hk : bytesValid k) (hv : bytesValid v) :
    38 ∉ encodePair k v := by
  intro hm
  unfold encodePair at hm
  rcases List.mem_append.mp hm with hm | hm
  · exact (percentEncode_mem k 38 hk hm).2.1 rfl
  · rcases List.mem_cons.mp hm with h | hm
    · omega
    · exact (percentEncode_mem v 38 hv hm).2.1 rfl

theorem filterMap_parseField_encoded (ps : List (ByteStr × ByteStr))
    (h : ∀ p ∈ ps, bytesValid p.1 ∧ bytesValid p.2) :
    (ps.map fun p => encodePair p.1 p.2).filterMap parseField = ps := by
  induction ps with
  | nil => simp
  | cons p ps ih =>
    have h1 := parseField_encodePair p.1 p.2 (h p (List.mem_cons_self p ps)).1
      (h p (List.mem_cons_self p ps)).2
    simp [h1, ih fun q hq => h q (List.mem_cons_of_mem _ hq)]

theorem splitAmp_joinAmp (fs : List (List Nat)) (h : ∀ f ∈ fs, 38 ∉ f) (hne : fs ≠ []) :
    splitAmp (joinAmp fs) = fs := by
  induction fs with
  | nil => exact absurd rfl hne
  | cons f fs ih =>
    cases fs with
    | nil => simpa [joinAmp] using splitAmp_no_amp f (h f (List.mem_cons_self f []))
    | cons g gs =>
      rw [show joinAmp (f :: g :: gs) = f ++ 38 :: joinAmp (g :: gs) from rfl]
      rw [splitAmp_append f _ (h f (List.mem_cons_self f (g :: gs)))]
      rw [ih (fun x hx => h x (List.mem_cons_of_mem _ hx)) (by simp)]

theorem insertPair_not_mem (m : QueryDict) (k v : ByteStr) (h : ¬ k ∈ keys m) :
    insertPair m k v = m ++ [(k, [v])] := by
  induction m with
  | nil => rfl
  | cons p rest ih =>
    simp only [keys, List.map_cons, List.mem_cons, not_or] at h
    have hne : ¬ p.1 = k := fun he => h.1 he.symm
    simp only [insertPair, if_neg hne]
    rw [ih h.2]
    simp

theorem insertPair_last (acc : QueryDict) (k u' : ByteStr) (u : List ByteStr)
    (h : ¬ k ∈ keys acc) :
    insertPair (acc ++ [(k, u)]) k u' = acc ++ [(k, u ++ [u'])] := by
  induction acc with
  | nil => simp [insertPair]
  | cons p rest ih =>
    simp only [keys, List.map_cons, List.mem_cons, not_or] at h
    have hne : ¬ p.1 = k := fun he => h.1 he.symm
    simp only [List.cons_append, insertPair, if_neg hne, List.append_eq]
    rw [ih h.2]

theorem foldl_insert_vals (acc : QueryDict) (k : ByteStr) (u : List ByteStr)
    (ws : List ByteStr) (h : ¬ k ∈ keys acc) :
    List.foldl (fun s kv => insertPair s kv.1 kv.2) (acc ++ [(k, u)])
      (ws.map fun v => (k, v)) = acc ++ [(k, u ++ ws)] := by
  induction ws generalizing u with
  | nil => simp
  | cons w ws ih =>
    simp only [List.map_cons, List.foldl_cons]
    rw [insertPair_last acc k w u h, ih (u ++ [w])]
    simp

theorem foldl_insert_pairsOf (m : QueryDict) (acc : QueryDict)
    (h1 : (keys m).Nodup) (h2 : ∀ p ∈ m, p.2 ≠ [])
    (hd : ∀ a ∈ keys m, ¬ a ∈ keys acc) :
    List.foldl (fun s kv => insertPair s kv.1 kv.2) acc (pairsOf m) = acc ++ m := by
  induction m generalizing acc with
  | nil => simp [pairsOf]
  | cons p rest ih =>
    obtain ⟨k, vs⟩ := p
    obtain ⟨w, ws, rfl⟩ : ∃ w ws, vs = w :: ws := by
      cases vs with
      | nil => exact absurd rfl (h2 (k, []) (List.mem_cons_self _ rest))
      | cons w ws => exact ⟨w, ws, rfl⟩
    simp only [keys, List.map_cons, List.nodup_cons] at h1
    have hknotacc : ¬ k ∈ keys acc := hd k (by simp [keys])
    simp only [pairsOf, List.foldl_append, List.map_cons, List.foldl_cons]
    rw [insertPair_not_mem acc k w hknotacc, foldl_insert_vals acc k [w] ws hknotacc]
    simp only [List.singleton_append]
    have hd' : ∀ a ∈ keys rest, ¬ a ∈ keys (acc ++ [(k, w :: ws)]) := by
      intro a ha
      simp only [keys, List.map_append, List.map_cons, List.map_nil, List.mem_append,
        List.mem_cons, not_or]
      have hak : a ≠ k := fun he => h1.1 (he ▸ ha)
      exact ⟨fun hc => hd a (List.mem_cons_of_mem _ ha) hc, by simp [hak]⟩
    rw [ih (acc ++ [(k, w :: ws)]) h1.2 (fun q hq => h2 q (List.mem_cons_of_mem _ hq)) hd']
    simp

theorem pairsOf_mem (m : QueryDict) (p : ByteStr × ByteStr) (hp : p ∈ pairsOf m) :
    ∃ vs, (p.1, vs) ∈ m ∧ p.2 ∈ vs := by
  induction m with
  | nil => simp [pairsOf] at hp
  | cons q rest ih =>
    simp only [pairsOf, List.mem_append] at hp
    rcases hp with hp | hp
    · obtain ⟨v, hv, rfl⟩ := List.mem_map.mp hp
      refine ⟨q.2, ?_, hv⟩
      simp
    · obtain ⟨vs, hvs, hv⟩ := ih hp
      exact ⟨vs, List.mem_cons_of_mem _ hvs, hv⟩

theorem fields_urlencode (m : QueryDict) (h : m.WF) :
    (splitAmp (urlencode m)).filterMap parseField = pairsOf m := by
  obtain ⟨h1, h2⟩ := h
  have hvalidpair : ∀ p ∈ pairsOf m, bytesValid p.1 ∧ bytesValid p.2 := by
    intro p hp
    obtain ⟨vs, hvs, hv⟩ := pairsOf_mem m p hp
    exact ⟨(h2 _ hvs).2.1, (h2 _ hvs).2.2 p.2 hv⟩
  by_cases hm : m = []
  · subst hm
    rfl
  · have hfields : ∀ f ∈ (pairsOf m).map (fun p => encodePair p.1 p.2), 38 ∉ f := by
      intro f hf
      obtain ⟨p, hp, rfl⟩ := List.mem_map.mp hf
      exact encodePair_no_amp p.1 p.2 (hvalidpair p hp).1 (hvalidpair p hp).2
    have hne : (pairsOf m).map (fun p => encodePair p.1 p.2) ≠ [] := by
      cases m with
      | nil => exact absurd rfl hm
      | cons p rest =>
        obtain ⟨w, ws, hvs⟩ : ∃ w ws, p.2 = w :: ws := by
          cases hv : p.2 with
          | nil => exact absurd hv (h2 p (List.mem_cons_self _ rest)).1
          | cons w ws => exact ⟨w, ws, rfl⟩
        simp [pairsOf, hvs]
    unfold urlencode
    rw [splitAmp_joinAmp _ hfields hne, filterMap_parseField_encoded _ hvalidpair]

theorem decode_urlencode (m : QueryDict) (h : m.WF) : decode (urlencode m) = m := by
  unfold decode
  rw [fields_urlencode m h]
  simpa using foldl_insert_pairsOf m [] h.1 (fun p hp => (h.2 p hp).1) (by simp [keys])

/-! Lemmas about the dictionary operations and the override loop. -/

theorem getVals_of_not_mem (m : QueryDict) (k : ByteStr) (h : ¬ k ∈ keys m) :
    getVals m k = [] := by
  induction m with
  | nil => rfl
  | cons p rest ih =>
    simp only [keys, List.map_cons, List.mem_cons, not_or] at h
    have hne : ¬ p.1 = k := fun he => h.1 he.symm
    simp only [getVals, if_neg hne]
    exact ih h.2

theorem getVals_setKey_self (m : QueryDict) (k v : ByteStr) :
    getVals (setKey m k v) k = [v] := by
  induction m with
  | nil => simp [setKey, getVals]
  | cons p rest ih =>
    by_cases hp : p.1 = k
    · simp [setKey, hp, getVals]
    · simp [setKey, hp, getVals, ih]

theorem getVals_setKey_ne (m : QueryDict) (k v d : ByteStr) (h : ¬ d = k) :
    getVals (setKey m k v) d = getVals m d := by
  have hkd : ¬ k = d := fun he => h he.symm
  induction m with
  | nil => simp [setKey, getVals, hkd]
  | cons p rest ih =>
    by_cases hp : p.1 = k
    · simp only [setKey, if_pos hp, getVals, if_neg hkd]
      rw [if_neg (show ¬ p.1 = d by rw [hp]; exact hkd)]
    · simp only [setKey, if_neg hp, getVals]
      by_cases hpd : p.1 = d
      · simp [hpd]
      · simp [hpd, ih]

theorem getVals_popKey_self (m : QueryDict) (k : ByteStr) (h : (keys m).Nodup) :
    getVals (popKey m k) k = [] := by
  induction m with
  | nil => rfl
  | cons p rest ih =>
    simp only [keys, List.map_cons, List.nodup_cons] at h
    by_cases hp : p.1 = k
    · simp only [popKey, if_pos hp]
      exact getVals_of_not_mem rest k fun hc => h.1 (by rw [hp]; exact hc)
    · simp only [popKey, if_neg hp, getVals, if_neg hp]
      exact ih h.2

theorem getVals_popKey_ne (m : QueryDict) (k d : ByteStr) (h : ¬ d = k) :
    getVals (popKey m k) d = getVals m d := by
  induction m with
  | nil => rfl
  | cons p rest ih =>
    by_cases hp : p.1 = k
    · simp only [popKey, if_pos hp, getVals]
      rw [if_neg (show ¬ p.1 = d from fun he => h (he ▸ hp))]
    · simp only [popKey, if_neg hp, getVals]
      by_cases hpd : p.1 = d
      · simp [hpd]
      · simp [hpd, ih]

theorem keys_setKey_mem (m : QueryDict) (k v : ByteStr) (h : k ∈ keys m) :
    keys (setKey m k v) = keys m := by
  induction m with
  | nil => simp [keys] at h
  | cons p rest ih =>
    by_cases hp : p.1 = k
    · simp [setKey, hp, keys]
    · have hk : k ∈ keys rest := by
        simp only [keys, List.map_cons, List.mem_cons] at h
        rcases h with h | h
        · exact absurd h.symm hp
        · exact h
      simp only [setKey, if_neg hp, keys, List.map_cons]
      exact congrArg (fun l => p.1 :: l) (ih hk)

theorem keys_setKey_not_mem (m : QueryDict) (k v : ByteStr) (h : ¬ k ∈ keys m) :
    keys (setKey m k v) = keys m ++ [k] := by
  induction m with
  | nil => simp [setKey, keys]
  | cons p rest ih =>
    simp only [keys, List.map_cons, List.mem_cons, not_or] at h
    have hp : ¬ p.1 = k := fun he => h.1 he.symm
    simp only [setKey, if_neg hp, keys, List.map_cons, List.cons_append]
    exact congrArg (fun l => p.1 :: l) (ih h.2)

theorem popKey_sublist (m : QueryDict) (k : ByteStr) : (popKey m k).Sublist m := by
  induction m with
  | nil => simp [popKey]
  | cons p rest ih =>
    by_cases hp : p.1 = k
    · simp only [popKey, if_pos hp]
      exact (List.Sublist.refl rest).cons p
    · simp only [popKey, if_neg hp]
      exact ih.cons₂ p

theorem mem_setKey (m : QueryDict) (k v : ByteStr) (p : ByteStr × List ByteStr)
    (hp : p ∈ setKey m k v) : p ∈ m ∨ p = (k, [v]) := by
  induction m with
  | nil =>
    right
    simpa [setKey] using hp
  | cons q rest ih =>
    by_cases hq : q.1 = k
    · simp only [setKey, if_pos hq, List.mem_cons] at hp
      rcases hp with hp | hp
      · exact Or.inr hp
      · exact Or.inl (List.mem_cons_of_mem _ hp)
    · simp only [setKey, if_neg hq, List.mem_cons] at hp
      rcases hp with hp | hp
      · exact Or.inl (by rw [hp]; exact List.mem_cons_self q rest)
      · rcases ih hp with h | h
        · exact Or.inl (List.mem_cons_of_mem _ h)
        · exact Or.inr h

theorem WF_setKey (m : QueryDict) (k v : ByteStr) (h : m.WF)
    (hk : bytesValid k) (hv : bytesValid v) : (setKey m k v).WF := by
  obtain ⟨h1, h2⟩ := h
  constructor
  · by_cases hmem : k ∈ keys m
    · rw [keys_setKey_mem m k v hmem]; exact h1
    · rw [keys_setKey_not_mem m k v hmem]
      refine List.Nodup.append h1 (List.nodup_singleton k) ?_
      intro a ha hb
      simp only [List.mem_singleton] at hb
      exact hmem (hb ▸ ha)
  · intro p hp
    rcases mem_setKey m k v p hp with hmem | heq
    · exact h2 p hmem
    · rw [heq]
      exact ⟨by simp, hk, by simpa using hv⟩

theorem WF_popKey (m : QueryDict) (k : ByteStr) (h : m.WF) : (popKey m k).WF := by
  obtain ⟨h1, h2⟩ := h
  refine ⟨h1.sublist ((popKey_sublist m k).map Prod.fst), ?_⟩
  intro p hp
  exact h2 p ((popKey_sublist m k).subset hp)

theorem natDigitsRev_valid (n : Nat) : ∀ d ∈ natDigitsRev n, d < 256 := by
  induction n using Nat.strong_induction_on with
  | _ n ih =>
    match n with
    | 0 => simp [natDigitsRev]
    | m + 1 =>
      intro d hd
      simp only [natDigitsRev] at hd
      rcases List.mem_cons.mp hd with h | h
      · omega
      · exact ih ((m + 1) / 10) (Nat.div_lt_self (by omega) (by omega)) d h

theorem natToDec_valid (n : Nat) : bytesValid (natToDec n) := by
  unfold natToDec
  split
  · decide
  · intro d hd
    exact natDigitsRev_valid n d (List.mem_reverse.mp hd)

theorem intToDec_valid (i : Int) : bytesValid (intToDec i) := by
  unfold intToDec
  split
  · intro d hd
    rcases List.mem_cons.mp hd with h | h
    · omega
    · exact natToDec_valid _ d h
  · exact natToDec_valid _

theorem pyStr_valid (v : PyVal) (h : v.wf) : bytesValid v.pyStr := by
  match v with
  | .str s => exact h
  | .int n => exact intToDec_valid n
  | .bool b => cases b <;> decide

theorem WF_applyOverride (m : QueryDict) (e : ByteStr × Option PyVal) (h : m.WF)
    (hk : bytesValid e.1) (he : entryWF e.2) : (applyOverride m e).WF := by
  cases hv : e.2 with
  | some v =>
    rw [hv] at he
    rw [show applyOverride m e = setKey m e.1 v.pyStr by simp [applyOverride, hv]]
    exact WF_setKey m e.1 v.pyStr h hk (pyStr_valid v he)
  | none =>
    rw [show applyOverride m e = popKey m e.1 by simp [applyOverride, hv]]
    exact WF_popKey m e.1 h

theorem WF_applyOverrides (O : Ov) (m : QueryDict) (h : m.WF)
    (hO : ∀ e ∈ O, bytesValid e.1 ∧ entryWF e.2) : (applyOverrides m O).WF := by
  induction O generalizing m with
  | nil => exact h
  | cons e rest ih =>
    show (applyOverrides (applyOverride m e) rest).WF
    exact ih (applyOverride m e)
      (WF_applyOverride m e h (hO e (List.mem_cons_self e rest)).1
        (hO e (List.mem_cons_self e rest)).2)
      (fun f hf => hO f (List.mem_cons_of_mem _ hf))

theorem applyOverride_getVals_other (m : QueryDict) (e : ByteStr × Option PyVal)
    (k : ByteStr) (h : ¬ k = e.1) :
    getVals (applyOverride m e) k = getVals m k := by
  cases hv : e.2 with
  | some v =>
    rw [show applyOverride m e = setKey m e.1 v.pyStr by simp [applyOverride, hv]]
    exact getVals_setKey_ne m e.1 v.pyStr k h
  | none =>
    rw [show applyOverride m e = popKey m e.1 by simp [applyOverride, hv]]
    exact getVals_popKey_ne m e.1 k h

theorem applyOverrides_getVals_not_mem (O : Ov) (m : QueryDict) (k : ByteStr)
    (h : ¬ k ∈ O.map Prod.fst) :
    getVals (applyOverrides m O) k = getVals m k := by
  induction O generalizing m with
  | nil => rfl
  | cons e rest ih =>
    simp only [List.map_cons, List.mem_cons, not_or] at h
    show getVals (applyOverrides (applyOverride m e) rest) k = getVals m k
    rw [ih (applyOverride m e) h.2, applyOverride_getVals_other m e k h.1]

theorem applyOverrides_getVals_some (O : Ov) (m : QueryDict) (k : ByteStr) (v : PyVal)
    (hnd : (O.map Prod.fst).Nodup) (hkv : (k, some v) ∈ O) :
    getVals (applyOverrides m O) k = [v.pyStr] := by
  induction O generalizing m with
  | nil => simp at hkv
  | cons e rest ih =>
    simp only [List.map_cons, List.nodup_cons] at hnd
    rcases List.mem_cons.mp hkv with heq | hmem
    · show getVals (applyOverrides (applyOverride m e) rest) k = [v.pyStr]
      have he1 : e.1 = k := by rw [← heq]
      have hknotrest : ¬ k ∈ rest.map Prod.fst := by
        rw [← he1]
        exact hnd.1
      rw [applyOverrides_getVals_not_mem rest (applyOverride m e) k hknotrest, ← heq]
      exact getVals_setKey_self m k v.pyStr
    · exact ih (applyOverride m e) hnd.2 hmem

theorem not_mem_keys_popKey (m : QueryDict) (k : ByteStr) (h : (keys m).Nodup) :
    ¬ k ∈ keys (popKey m k) := by
  induction m with
  | nil => simp [popKey, keys]
  | cons p rest ih =>
    simp only [keys, List.map_cons, List.nodup_cons] at h
    by_cases hp : p.1 = k
    · simp only [popKey, if_pos hp]
      intro hc
      exact h.1 (by rw [hp]; exact hc)
    · simp only [popKey, if_neg hp, keys, List.map_cons, List.mem_cons, not_or]
      exact ⟨fun he => hp he.symm, ih h.2⟩

theorem not_mem_keys_applyOverride (m : QueryDict) (e : ByteStr × Option PyVal)
    (k : ByteStr) (h : ¬ k ∈ keys m) (hne : ¬ k = e.1) :
    ¬ k ∈ keys (applyOverride m e) := by
  cases hv : e.2 with
  | some v =>
    rw [show applyOverride m e = setKey m e.1 v.pyStr by simp [applyOverride, hv]]
    by_cases hmem : e.1 ∈ keys m
    · rw [keys_setKey_mem m e.1 _ hmem]; exact h
    · rw [keys_setKey_not_mem m e.1 _ hmem]
      simp only [List.mem_append, List.mem_singleton, not_or]
      exact ⟨h, hne⟩
  | none =>
    rw [show applyOverride m e = popKey m e.1 by simp [applyOverride, hv]]
    intro hc
    exact h (((popKey_sublist m e.1).map Prod.fst).subset hc)

theorem nodup_keys_applyOverride (m : QueryDict) (e : ByteStr × Option PyVal)
    (h : (keys m).Nodup) : (keys (applyOverride m e)).Nodup := by
  cases hv : e.2 with
  | some v =>
    rw [show applyOverride m e = setKey m e.1 v.pyStr by simp [applyOverride, hv]]
    by_cases hmem : e.1 ∈ keys m
    · rw [keys_setKey_mem m e.1 _ hmem]; exact h
    · rw [keys_setKey_not_mem m e.1 _ hmem]
      refine List.Nodup.append h (List.nodup_singleton _) ?_
      intro a ha hb
      simp only [List.mem_singleton] at hb
      exact hmem (hb ▸ ha)
  | none =>
    rw [show applyOverride m e = popKey m e.1 by simp [applyOverride, hv]]
    exact h.sublist ((popKey_sublist m e.1).map Prod.fst)

theorem not_mem_keys_applyOverrides (O : Ov) (m : QueryDict) (k : ByteStr)
    (h : ¬ k ∈ keys m) (hO : ∀ e ∈ O, ¬ k = e.1) (hnd : (keys m).Nodup) :
    ¬ k ∈ keys (applyOverrides m O) := by
  induction O generalizing m with
  | nil => exact h
  | cons e rest ih =>
    show ¬ k ∈ keys (applyOverrides (applyOverride m e) rest)
    exact ih (applyOverride m e)
      (not_mem_keys_applyOverride m e k h (hO e (List.mem_cons_self e rest)))
      (fun f hf => hO f (List.mem_cons_of_mem _ hf))
      (nodup_keys_applyOverride m e hnd)

theorem applyOverrides_none_not_mem (O : Ov) (m : QueryDict) (k : ByteStr)
    (hnd : (O.map Prod.fst).Nodup) (hk : (k, none) ∈ O) (hm : (keys m).Nodup) :
    ¬ k ∈ keys (applyOverrides m O) := by
  induction O generalizing m with
  | nil => simp at hk
  | cons e rest ih =>
    simp only [List.map_cons, List.nodup_cons] at hnd
    rcases List.mem_cons.mp hk with heq | hmem
    · show ¬ k ∈ keys (applyOverrides (applyOverride m e) rest)
      have he1 : e.1 = k := by rw [← heq]
      have hstep : ¬ k ∈ keys (applyOverride m e) := by
        rw [← heq]
        exact not_mem_keys_popKey m k hm
      exact not_mem_keys_applyOverrides rest (applyOverride m e) k hstep
        (fun f hf heqk => hnd.1 (by rw [he1, heqk]; exact List.mem_map.mpr ⟨f, hf, rfl⟩))
        (nodup_keys_applyOverride m e hm)
    · exact ih (applyOverride m e) hnd.2 hmem (nodup_keys_applyOverride m e hm)

theorem qtRun_GET (P : QueryDict) (O : Ov) : (qtRun P O).GET = P := by
  have aux : ∀ (Os : Ov) (s : TransformState), (Os.foldl qtStep s).GET = s.GET := by
    intro Os
    induction Os with
    | nil => intro s; rfl
    | cons e rest ih => intro s; exact ih (qtStep s e)
  exact aux O { GET := P, updated := P }

theorem qtRun_updated (P : QueryDict) (O : Ov) :
    (qtRun P O).updated = applyOverrides P O := by
  have aux : ∀ (Os : Ov) (s : TransformState),
      (Os.foldl qtStep s).updated = applyOverrides s.updated Os := by
    intro Os
    induction Os with
    | nil => intro s; rfl
    | cons e rest ih => intro s; exact ih (qtStep s e)
  exact aux O { GET := P, updated := P }

theorem decode_query_transform (P : QueryDict) (O : Ov) (hP : P.WF)
    (hO : ∀ e ∈ O, bytesValid e.1 ∧ entryWF e.2) :
    decode (query_transform P O) = applyOverrides P O := by
  unfold query_transform
  rw [qtRun_updated]
  exact decode_urlencode _ (WF_applyOverrides O P hP hO)

theorem query_transform_urlencode (P : QueryDict) (O : Ov) :
    query_transform P O = urlencode (applyOverrides P O) := by
  unfold query_transform
  rw [qtRun_updated]

theorem mem_keys_of_getVals_ne (m : QueryDict) (k : ByteStr) (h : getVals m k ≠ []) :
    k ∈ keys m := by
  by_contra hc
  exact h (getVals_of_not_mem m k hc)

theorem popKey_not_mem (m : QueryDict) (k : ByteStr) (h : ¬ k ∈ keys m) :
    popKey m k = m := by
  induction m with
  | nil => rfl
  | cons p rest ih =>
    simp only [keys, List.map_cons, List.mem_cons, not_or] at h
    have hp : ¬ p.1 = k := fun he => h.1 he.symm
    simp [popKey, hp, ih h.2]

theorem applyOverrides_skip_absent (O : Ov) (m : QueryDict) (k : ByteStr)
    (hnd : (O.map Prod.fst).Nodup) (hk : (k, none) ∈ O) (hm : ¬ k ∈ keys m) :
    applyOverrides m O = applyOverrides m (O.filter fun e => decide (e.1 ≠ k)) := by
  induction O generalizing m with
  | nil => rfl
  | cons e rest ih =>
    simp only [List.map_cons, List.nodup_cons] at hnd
    rcases List.mem_cons.mp hk with heq | hmem
    · have he1 : e.1 = k := by rw [← heq]
      have hrest : rest.filter (fun e => decide (e.1 ≠ k)) = rest := by
        apply List.filter_eq_self.mpr
        intro p hp
        simp only [decide_eq_true_eq]
        intro hpk
        exact hnd.1 (by rw [he1, ← hpk]; exact List.mem_map.mpr ⟨p, hp, rfl⟩)
      have hfilter : (e :: rest).filter (fun e => decide (e.1 ≠ k)) = rest := by
        rw [List.filter_cons, if_neg (by simp [he1])]
        exact hrest
      rw [hfilter]
      have hpop : applyOverride m e = m := by
        rw [← heq]
        exact popKey_not_mem m k hm
      show applyOverrides (applyOverride m e) rest = applyOverrides m rest
      rw [hpop]
    · have he1 : ¬ e.1 = k :=
        fun he => hnd.1 (by rw [he]; exact List.mem_map.mpr ⟨(k, none), hmem, rfl⟩)
      have hfilter : (e :: rest).filter (fun e => decide (e.1 ≠ k)) =
          e :: rest.filter (fun e => decide (e.1 ≠ k)) := by
        rw [List.filter_cons]
        simp [he1]
      rw [hfilter]
      show applyOverrides (applyOverride m e) rest =
        applyOverrides (applyOverride m e) (rest.filter fun e => decide (e.1 ≠ k))
      exact ih (applyOverride m e) hnd.2 hmem
        (not_mem_keys_applyOverride m e k hm fun hke => he1 hke.symm)

theorem pairsOf_filter_not_mem (m : QueryDict) (k : ByteStr) (h : ¬ k ∈ keys m) :
    (pairsOf m).filter (fun q => decide (q.1 = k)) = [] := by
  rw [List.filter_eq_nil_iff]
  intro q hq
  obtain ⟨vs, hvs, hv⟩ := pairsOf_mem m q hq
  simp only [decide_eq_true_eq]
  intro hqk
  exact h (by rw [← hqk]; exact List.mem_map.mpr ⟨(q.1, vs), hvs, rfl⟩)

theorem pairsOf_filter_count (m : QueryDict) (k : ByteStr) (h : (keys m).Nodup) :
    ((pairsOf m).filter (fun q => decide (q.1 = k))).length = (getVals m k).length := by
  induction m with
  | nil => rfl
  | cons p rest ih =>
    simp only [keys, List.map_cons, List.nodup_cons] at h
    simp only [pairsOf, List.filter_append, List.length_append]
    by_cases hp : p.1 = k
    · have hhead : (p.2.map fun v => (p.1, v)).filter (fun q => decide (q.1 = k)) =
          p.2.map fun v => (p.1, v) := by
        apply List.filter_eq_self.mpr
        intro q hq
        obtain ⟨v, hv, rfl⟩ := List.mem_map.mp hq
        simp [hp]
      have hrest : (pairsOf rest).filter (fun q => decide (q.1 = k)) = [] :=
        pairsOf_filter_not_mem rest k fun hc => h.1 (by rw [hp]; exact hc)
      rw [hhead, hrest]
      simp [getVals, hp]
    · have hhead : (p.2.map fun v => (p.1, v)).filter (fun q => decide (q.1 = k)) = [] := by
        rw [List.filter_eq_nil_iff]
        intro q hq
        obtain ⟨v, hv, rfl⟩ := List.mem_map.mp hq
        simp [hp]
      rw [hhead, ih h.2]
      simp [getVals, hp]

theorem joinAmp_mem (fs : List (List Nat)) (d : Nat) (hd : d ∈ joinAmp fs) :
    d = 38 ∨ ∃ f ∈ fs, d ∈ f := by
  induction fs with
  | nil => simp [joinAmp] at hd
  | cons f fs ih =>
    cases fs with
    | nil =>
      right
      exact ⟨f, by simp, by simpa [joinAmp] using hd⟩
    | cons g gs =>
      rw [show joinAmp (f :: g :: gs) = f ++ 38 :: joinAmp (g :: gs) from rfl] at hd
      rcases List.mem_append.mp hd with h | h
      · exact Or.inr ⟨f, by simp, h⟩
      · rcases List.mem_cons.mp h with h | h
        · exact Or.inl h
        · rcases ih h with h | ⟨f2, hf2, hdf2⟩
          · exact Or.inl h
          · exact Or.inr ⟨f2, List.mem_cons_of_mem _ hf2, hdf2⟩

theorem encodePair_mem (k v : ByteStr) (d : Nat) (hk : bytesValid k) (hv : bytesValid v)
    (hd : d ∈ encodePair k v) : d < 128 ∧ d ≠ 63 := by
  unfold encodePair at hd
  rcases List.mem_append.mp hd with h | h
  · have := percentEncode_mem k d hk h
    exact ⟨this.1, this.2.2.2⟩
  · rcases List.mem_cons.mp h with h | h
    · omega
    · have := percentEncode_mem v d hv h
      exact ⟨this.1, this.2.2.2⟩

theorem urlencode_mem (m : QueryDict) (d : Nat) (h : m.WF) (hd : d ∈ urlencode m) :
    d < 128 ∧ d ≠ 63 := by
  unfold urlencode at hd
  rcases joinAmp_mem _ d hd with h38 | ⟨f, hf, hdf⟩
  · omega
  · obtain ⟨p, hp, rfl⟩ := List.mem_map.mp hf
    obtain ⟨vs, hvs, hv⟩ := pairsOf_mem m p hp
    exact encodePair_mem p.1 p.2 d (h.2 _ hvs).2.1 ((h.2 _ hvs).2.2 p.2 hv) hdf

/-! The claims. -/

/-- Claim C1: for every well-formed parameter multi-map and override map free
of absent sentinels, decoding the string returned by query_transform gives
every override key exactly its stringified override value, and every parameter
key not named by an override keeps its original values unchanged. -/
theorem C1_override_merge (P : QueryDict) (O : Ov) (k kp : ByteStr) (v : PyVal)
    (hP : P.WF) (hO : O.WF) (_hns : ∀ e ∈ O, e.2 ≠ none)
    (hk : (k, some v) ∈ O) (hkp : ¬ kp ∈ O.map Prod.fst) :
    getVals (decode (query_transform P O)) k = [v.pyStr] ∧
    k ∈ keys (decode (query_transform P O)) ∧
    getVals (decode (query_transform P O)) kp = getVals P kp := by
  have hOv : ∀ e ∈ O, bytesValid e.1 ∧ entryWF e.2 := fun e he => hO.2 e he
  rw [decode_query_transform P O hP hOv]
  refine ⟨applyOverrides_getVals_some O P k v hO.1 hk, ?_,
    applyOverrides_getVals_not_mem O P kp hkp⟩
  apply mem_keys_of_getVals_ne
  rw [applyOverrides_getVals_some O P k v hO.1 hk]
  simp

/-- Witness for C1: parameters p equal 1, override q equal 2; q is added with
value 2 and p is unchanged. -/
theorem C1_witness :
    QueryDict.WF [([112], [[49]])] ∧
    Ov.WF [([113], some (PyVal.int 2))] ∧
    (∀ e ∈ ([([113], some (PyVal.int 2))] : Ov), e.2 ≠ none) ∧
    ([113], some (PyVal.int 2)) ∈ ([([113], some (PyVal.int 2))] : Ov) ∧
    ¬ [112] ∈ ([([113], some (PyVal.int 2))] : Ov).map Prod.fst ∧
    (getVals (decode (query_transform [([112], [[49]])] [([113], some (PyVal.int 2))]))
        [113] = [(PyVal.int 2).pyStr] ∧
      [113] ∈ keys (decode (query_transform [([112], [[49]])]
        [([113], some (PyVal.int 2))])) ∧
      getVals (decode (query_transform [([112], [[49]])] [([113], some (PyVal.int 2))]))
        [112] = getVals [([112], [[49]])] [112]) :=
  ⟨by decide, by decide, by decide, by decide, by decide,
    C1_override_merge [([112], [[49]])] [([113], some (PyVal.int 2))] [113] [112]
      (PyVal.int 2) (by decide) (by decide) (by decide) (by decide) (by decide)⟩

/-- Claim C2: an override mapping a key to the absent sentinel removes the key
from the decoded result, whether or not it was among the parameters; and when
the key is not a parameter key, the returned string is identical to the one
produced with that override dropped and only the remaining overrides applied. -/
theorem C2_absent_sentinel (P : QueryDict) (O : Ov) (k : ByteStr)
    (hP : P.WF) (hO : O.WF) (hk : (k, none) ∈ O) :
    ¬ k ∈ keys (decode (query_transform P O)) ∧
    getVals (decode (query_transform P O)) k = [] ∧
    (¬ k ∈ keys P →
      query_transform P O = query_transform P (O.filter fun e => decide (e.1 ≠ k))) := by
  have hOv : ∀ e ∈ O, bytesValid e.1 ∧ entryWF e.2 := fun e he => hO.2 e he
  have hnm := applyOverrides_none_not_mem O P k hO.1 hk hP.1
  rw [decode_query_transform P O hP hOv]
  refine ⟨hnm, getVals_of_not_mem _ k hnm, ?_⟩
  intro hkP
  rw [query_transform_urlencode, query_transform_urlencode]
  rw [← applyOverrides_skip_absent O P k hO.1 hk hkP]

/-- Witness for C2: removing key b, absent from the parameters, leaves no b in
the result and the output equals the one with the override dropped. -/
theorem C2_witness :
    QueryDict.WF [([97], [[49]])] ∧
    Ov.WF [([98], none)] ∧
    ([98], (none : Option PyVal)) ∈ ([([98], none)] : Ov) ∧
    (¬ [98] ∈ keys (decode (query_transform [([97], [[49]])] [([98], none)])) ∧
      getVals (decode (query_transform [([97], [[49]])] [([98], none)])) [98] = [] ∧
      (¬ [98] ∈ keys [([97], [[49]])] →
        query_transform [([97], [[49]])] [([98], none)] =
          query_transform [([97], [[49]])]
            (([([98], none)] : Ov).filter fun e => decide (e.1 ≠ [98])))) :=
  ⟨by decide, by decide, by decide,
    C2_absent_sentinel [([97], [[49]])] [([98], none)] [98]
      (by decide) (by decide) (by decide)⟩

/-- Claim C3: for any key with more than one original value: if an override
gives it a concrete value, the decoded result has exactly that one stringified
value for it, prior multiplicity discarded; if no override targets it, the
decoded result keeps all its original values and the encoded string emits one
key=value field per original value. -/
theorem C3_multivalue (P : QueryDict) (O : Ov) (k : ByteStr)
    (hP : P.WF) (hO : O.WF) (_hmulti : 1 < (getVals P k).length) :
    (∀ v : PyVal, (k, some v) ∈ O →
      getVals (decode (query_transform P O)) k = [v.pyStr]) ∧
    (¬ k ∈ O.map Prod.fst →
      getVals (decode (query_transform P O)) k = getVals P k ∧
      (((splitAmp (query_transform P O)).filterMap parseField).filter
          (fun q => decide (q.1 = k))).length = (getVals P k).length) := by
  have hOv : ∀ e ∈ O, bytesValid e.1 ∧ entryWF e.2 := fun e he => hO.2 e he
  have hWF := WF_applyOverrides O P hP hOv
  constructor
  · intro v hk
    rw [decode_query_transform P O hP hOv]
    exact applyOverrides_getVals_some O P k v hO.1 hk
  · intro hkp
    constructor
    · rw [decode_query_transform P O hP hOv]
      exact applyOverrides_getVals_not_mem O P k hkp
    · rw [query_transform_urlencode, fields_urlencode _ hWF,
        pairsOf_filter_count _ k hWF.1,
        applyOverrides_getVals_not_mem O P k hkp]

/-- Witness for C3: a has values 1 and 2 and the only override targets p, so a
keeps both values and two a fields are emitted; had an override targeted a,
the first branch would collapse it. -/
theorem C3_witness :
    QueryDict.WF [([97], [[49], [50]])] ∧
    Ov.WF [([112], some (PyVal.int 2))] ∧
    1 < (getVals [([97], [[49], [50]])] [97]).length ∧
    ((∀ v : PyVal, ([97], some v) ∈ ([([112], some (PyVal.int 2))] : Ov) →
        getVals (decode (query_transform [([97], [[49], [50]])]
          [([112], some (PyVal.int 2))])) [97] = [v.pyStr]) ∧
      (¬ [97] ∈ ([([112], some (PyVal.int 2))] : Ov).map Prod.fst →
        getVals (decode (query_transform [([97], [[49], [50]])]
          [([112], some (PyVal.int 2))])) [97] = getVals [([97], [[49], [50]])] [97] ∧
        (((splitAmp (query_transform [([97], [[49], [50]])]
            [([112], some (PyVal.int 2))])).filterMap parseField).filter
            (fun q => decide (q.1 = [97]))).length =
          (getVals [([97], [[49], [50]])] [97]).length)) :=
  ⟨by decide, by decide, by decide,
    C3_multivalue [([97], [[49], [50]])] [([112], some (PyVal.int 2))] [97]
      (by decide) (by decide) (by decide)⟩

/-- Claim C4: with an empty override map, decoding the returned string gives
back exactly the original well-formed parameter multi-map. -/
theorem C4_empty_roundtrip (P : QueryDict) (hP : P.WF) :
    decode (query_transform P []) = P := by
  rw [decode_query_transform P [] hP (by simp)]
  rfl

/-- Witness for C4 on a two-key map with a multi-valued key. -/
theorem C4_witness :
    QueryDict.WF [([116], [[55]]), ([117], [[56], [57]])] ∧
    decode (query_transform [([116], [[55]]), ([117], [[56], [57]])] []) =
      [([116], [[55]]), ([117], [[56], [57]])] :=
  ⟨by decide, C4_empty_roundtrip [([116], [[55]]), ([117], [[56], [57]])] (by decide)⟩

/-- Claim C5: re-encoding the decoded result of query_transform with an empty
override map yields a string that decodes to the same multi-map. -/
theorem C5_reencode_idempotent (P : QueryDict) (O : Ov) (hP : P.WF) (hO : O.WF) :
    decode (query_transform (decode (query_transform P O)) []) =
      decode (query_transform P O) := by
  have hOv : ∀ e ∈ O, bytesValid e.1 ∧ entryWF e.2 := fun e he => hO.2 e he
  have hWF := WF_applyOverrides O P hP hOv
  rw [decode_query_transform P O hP hOv]
  rw [show query_transform (applyOverrides P O) [] =
    urlencode (applyOverrides P O) from rfl]
  exact decode_urlencode _ hWF

/-- Witness for C5 with a boolean override value. -/
theorem C5_witness :
    QueryDict.WF [([100], [[49]])] ∧
    Ov.WF [([101], some (PyVal.bool true))] ∧
    decode (query_transform
        (decode (query_transform [([100], [[49]])] [([101], some (PyVal.bool true))]))
        []) =
      decode (query_transform [([100], [[49]])] [([101], some (PyVal.bool true))]) :=
  ⟨by decide, by decide,
    C5_reencode_idempotent [([100], [[49]])] [([101], some (PyVal.bool true))]
      (by decide) (by decide)⟩

/-- Claim C6: query_transform never writes the request's GET dictionary: the
loop assigns only the local variable updated, which starts as a copy, so the
request state after the body still holds the original parameters. -/
theorem C6_no_mutation (P : QueryDict) (O : Ov) : (qtRun P O).GET = P :=
  qtRun_GET P O

/-- Claim C7: query_transform is total: on every well-formed parameter map and
override map, empty ones and string, integer and boolean values included, it
returns a plain ASCII byte string; removing an absent key and adding a new key
go through the same non-failing branches. -/
theorem C7_total (P : QueryDict) (O : Ov) (hP : P.WF) (hO : O.WF) :
    ∀ b ∈ query_transform P O, b < 128 := by
  intro b hb
  rw [query_transform_urlencode] at hb
  exact (urlencode_mem _ b (WF_applyOverrides O P hP fun e he => hO.2 e he) hb).1

/-- Witness for C7: empty parameters, an empty-string override and the removal
of an absent key. -/
theorem C7_witness :
    QueryDict.WF [] ∧
    Ov.WF [([110], some (PyVal.str [])), ([122], none)] ∧
    ∀ b ∈ query_transform [] [([110], some (PyVal.str [])), ([122], none)], b < 128 :=
  ⟨by decide, by decide,
    C7_total [] [([110], some (PyVal.str [])), ([122], none)] (by decide) (by decide)⟩

/-- Claim C8: the returned string carries no question mark (in particular no
leading one), and splitting it on the ampersand byte and parsing each
key=value field recovers exactly the percent-encoded pairs of the merged
dictionary, one pair per value. -/
theorem C8_output_format (P : QueryDict) (O : Ov) (hP : P.WF) (hO : O.WF) :
    ¬ 63 ∈ query_transform P O ∧
    (splitAmp (query_transform P O)).filterMap parseField =
      pairsOf (applyOverrides P O) := by
  have hWF := WF_applyOverrides O P hP fun e he => hO.2 e he
  constructor
  · intro hc
    rw [query_transform_urlencode] at hc
    exact (urlencode_mem _ 63 hWF hc).2 rfl
  · rw [query_transform_urlencode]
    exact fields_urlencode _ hWF

/-- Witness for C8 on a parameter whose value is a space. -/
theorem C8_witness :
    QueryDict.WF [([102], [[32]])] ∧
    Ov.WF ([] : Ov) ∧
    (¬ 63 ∈ query_transform [([102], [[32]])] [] ∧
      (splitAmp (query_transform [([102], [[32]])] [])).filterMap parseField =
        pairsOf (applyOverrides [([102], [[32]])] [])) :=
  ⟨by decide, by decide, C8_output_format [([102], [[32]])] [] (by decide) (by decide)⟩

/-- Claim C9: only the None sentinel removes a key: every override with a
concrete value, the empty string included, leaves the key present in the
decoded result, bound to exactly that stringified value. -/
theorem C9_only_sentinel_removes (P : QueryDict) (O : Ov) (k : ByteStr) (v : PyVal)
    (hP : P.WF) (hO : O.WF) (hk : (k, some v) ∈ O) :
    getVals (decode (query_transform P O)) k = [v.pyStr] ∧
    k ∈ keys (decode (query_transform P O)) := by
  have hOv : ∀ e ∈ O, bytesValid e.1 ∧ entryWF e.2 := fun e he => hO.2 e he
  rw [decode_query_transform P O hP hOv]
  refine ⟨applyOverrides_getVals_some O P k v hO.1 hk, ?_⟩
  apply mem_keys_of_getVals_ne
  rw [applyOverrides_getVals_some O P k v hO.1 hk]
  simp

/-- Witness for C9: overriding key c with the empty string keeps c present
with a blank value instead of deleting it. -/
theorem C9_witness :
    QueryDict.WF [([99], [[53]])] ∧
    Ov.WF [([99], some (PyVal.str []))] ∧
    ([99], some (PyVal.str [])) ∈ ([([99], some (PyVal.str []))] : Ov) ∧
    (getVals (decode (query_transform [([99], [[53]])] [([99], some (PyVal.str []))]))
        [99] = [(PyVal.str []).pyStr] ∧
      [99] ∈ keys (decode (query_transform [([99], [[53]])]
        [([99], some (PyVal.str []))]))) :=
  ⟨by decide, by decide, by decide,
    C9_only_sentinel_removes [([99], [[53]])] [([99], some (PyVal.str []))] [99]
      (PyVal.str []) (by decide) (by decide) (by decide)⟩

/-- Claim C10: the decoded result of query_transform does not depend on the
iteration order of the override map: for any permutation of a well-formed
override map, every key is bound to the same values. -/
theorem C10_override_order_irrelevant (P : QueryDict) (O Oq : Ov) (k : ByteStr)
    (hP : P.WF) (hO : O.WF) (hperm : O.Perm Oq) :
    getVals (decode (query_transform P O)) k =
      getVals (decode (query_transform P Oq)) k := by
  have hOv : ∀ e ∈ O, bytesValid e.1 ∧ entryWF e.2 := fun e he => hO.2 e he
  have hndq : (Oq.map Prod.fst).Nodup := (hperm.map Prod.fst).nodup hO.1
  have hOvq : ∀ e ∈ Oq, bytesValid e.1 ∧ entryWF e.2 :=
    fun e he => hOv e (hperm.symm.subset he)
  rw [decode_query_transform P O hP hOv, decode_query_transform P Oq hP hOvq]
  by_cases hmem : k ∈ O.map Prod.fst
  · obtain ⟨e, he, hke⟩ := List.mem_map.mp hmem
    cases hv : e.2 with
    | some v =>
      have hkv : (k, some v) ∈ O := by
        rw [← hke, ← hv]
        simpa using he
      have hkvq : (k, some v) ∈ Oq := hperm.subset hkv
      rw [applyOverrides_getVals_some O P k v hO.1 hkv,
        applyOverrides_getVals_some Oq P k v hndq hkvq]
    | none =>
      have hkv : (k, none) ∈ O := by
        rw [← hke, ← hv]
        simpa using he
      have hkvq : (k, none) ∈ Oq := hperm.subset hkv
      rw [getVals_of_not_mem _ k (applyOverrides_none_not_mem O P k hO.1 hkv hP.1),
        getVals_of_not_mem _ k (applyOverrides_none_not_mem Oq P k hndq hkvq hP.1)]
  · have hmemq : ¬ k ∈ Oq.map Prod.fst :=
      fun hc => hmem ((hperm.map Prod.fst).mem_iff.mpr hc)
    rw [applyOverrides_getVals_not_mem O P k hmem,
      applyOverrides_getVals_not_mem Oq P k hmemq]

/-- Witness for C10: the two orders of a set-override and a remove-override
give key a the same value. -/
theorem C10_witness :
    QueryDict.WF [([109], [[48]])] ∧
    Ov.WF [([97], some (PyVal.int 1)), ([98], none)] ∧
    ([([97], some (PyVal.int 1)), ([98], none)] : Ov).Perm
      [([98], none), ([97], some (PyVal.int 1))] ∧
    getVals (decode (query_transform [([109], [[48]])]
        [([97], some (PyVal.int 1)), ([98], none)])) [97] =
      getVals (decode (query_transform [([109], [[48]])]
        [([98], none), ([97], some (PyVal.int 1))])) [97] :=
  ⟨by decide, by decide, by decide,
    C10_override_order_irrelevant [([109], [[48]])]
      [([97], some (PyVal.int 1)), ([98], none)]
      [([98], none), ([97], some (PyVal.int 1))] [97]
      (by decide) (by decide) (by decide)⟩

end QT
